import Mathlib

/- A shallow embedding, over exact rational arithmetic, of the geometry-nodes
"Point Distribute" operation (plain random scatter and minimum-distance
scatter) found in the excerpt, together with machine-checked proofs of the
specification's claims about it.  Floats are modelled as rationals; machine
integers as `Int`/`Nat` with explicit wrapping where it matters.  External
library routines that are not part of the excerpt (`BLI_rand`, `BLI_hash`,
`BLI_kdtree`, the vector-math helpers) are modelled from the specification
and marked as such in their doc comments. -/

namespace PointDistribute

/-- The 3-component vector type `blender::float3`, with exact rational components. -/
structure V3 where
  x : ℚ
  y : ℚ
  z : ℚ
  deriving DecidableEq

/-- The zero vector, used as default value for out-of-range list reads. -/
def v3zero : V3 := ⟨0, 0, 0⟩

instance : Inhabited V3 := ⟨v3zero⟩

/-- A quaternion value, only produced and consumed by the external rotation helpers. -/
structure Q4 where
  w : ℚ
  x : ℚ
  y : ℚ
  z : ℚ
  deriving DecidableEq

/-- One entry of the mesh's triangulated-surface cache (`MLoopTri`): three loop indices. -/
structure MLoopTri where
  tri0 : ℕ
  tri1 : ℕ
  tri2 : ℕ
  deriving DecidableEq

instance : Inhabited MLoopTri := ⟨⟨0, 0, 0⟩⟩

/-- The mesh data the algorithm reads: the loop-to-vertex indices
(`mesh->mloop[_].v`), the vertex positions (`mesh->mvert[_].co`) and the
triangulated-surface cache returned by `get_mesh_looptris`. -/
structure Mesh where
  mloop : List ℕ
  mvert : List V3
  looptris : List MLoopTri
  deriving DecidableEq

/-- Squared Euclidean distance between two points. -/
def dist2 (a b : V3) : ℚ :=
  (a.x - b.x) ^ 2 + (a.y - b.y) ^ 2 + (a.z - b.z) ^ 2

theorem dist2_comm (a b : V3) : dist2 a b = dist2 b a := by
  unfold dist2; ring

theorem dist2_nonneg (a b : V3) : 0 ≤ dist2 a b := by
  unfold dist2; positivity

/-- Truncation toward zero: the behaviour of the C `(int)` cast on a
non-negative float value, total on all of `ℚ`. -/
def c_trunc (q : ℚ) : ℤ := if 0 ≤ q then q.floor else -(-q).floor

/-- The C `fractf` helper: `x - floorf(x)`, the fractional part. -/
def fractf (q : ℚ) : ℚ := q - q.floor

/-- Modelled from the spec (§4.1): `BLI_hash_int`, "deterministic hash-based
combination (e.g., integer hash of `triangle_index + global_seed`)"; the spec
(§9) leaves the exact 32-bit hash as an implementation choice, so a
multiplicative 32-bit mix is used here, with the C `int` argument first
wrapped to `unsigned int` as in the source call. -/
def hash_int (k : ℤ) : ℕ :=
  ((k % 4294967296).toNat * 2654435761) % 4294967296

/-- Modelled from the spec (§4.1): one step of the per-stream generator state
(a 64-bit linear congruential step; the spec only requires a reproducible
deterministic stream). -/
def lcg_next (x : ℕ) : ℕ :=
  (x * 6364136223846793005 + 1442695040888963407) % 18446744073709551616

/-- Modelled from the spec (§4.1): the generator state after `n+1` steps from
`seed` (`RandomNumberGenerator looptri_rng(looptri_seed)` and its successive
internal steps). -/
def rng_state (seed : ℕ) : ℕ → ℕ
  | 0 => lcg_next seed
  | n + 1 => lcg_next (rng_state seed n)

/-- Modelled from the spec (§4.1): `next_float() -> [0,1)`; the `n`-th uniform
float drawn from the stream seeded with `seed`. -/
def rng_float (seed : ℕ) (n : ℕ) : ℚ :=
  ((rng_state seed n % 4294967296 : ℕ) : ℚ) / 4294967296

theorem rng_float_nonneg (seed n : ℕ) : 0 ≤ rng_float seed n := by
  unfold rng_float; positivity

theorem rng_float_lt_one (seed n : ℕ) : rng_float seed n < 1 := by
  unfold rng_float
  rw [div_lt_one (by norm_num)]
  have h : rng_state seed n % 4294967296 < 4294967296 :=
    Nat.mod_lt _ (by norm_num)
  exact_mod_cast h

/-- The per-triangle RNG stream: the source seeds a fresh generator with
`BLI_hash_int(looptri_index + seed)` for each triangle. -/
def triStream (t : ℕ) (seed : ℤ) : ℕ → ℚ :=
  rng_float (hash_int ((t : ℤ) + seed))

/-- Modelled from the spec (§4.1): `next_barycentric() -> (b0, b1, b2)` with
`b0+b1+b2 = 1` and non-negative components, built from two uniform draws by
the standard fold-into-the-triangle construction
(`RandomNumberGenerator::get_barycentric_coordinates`). -/
def get_barycentric (u1 u2 : ℚ) : V3 :=
  if 1 < u1 + u2 then ⟨1 - u1, 1 - u2, u1 + u2 - 1⟩ else ⟨u1, u2, 1 - u1 - u2⟩

theorem get_barycentric_sum (u1 u2 : ℚ) :
    (get_barycentric u1 u2).x + (get_barycentric u1 u2).y + (get_barycentric u1 u2).z = 1 := by
  unfold get_barycentric
  split
  · show (1 - u1) + (1 - u2) + (u1 + u2 - 1) = 1
    ring
  · show u1 + u2 + (1 - u1 - u2) = 1
    ring

/-- Modelled from the spec (§4.2 step 5): `interp_v3_v3v3v3`, barycentric
interpolation of the three vertex positions. -/
def interp_v3 (a b c w : V3) : V3 :=
  ⟨a.x * w.x + b.x * w.y + c.x * w.z,
   a.y * w.x + b.y * w.y + c.y * w.z,
   a.z * w.x + b.z * w.y + c.z * w.z⟩

/-- Modelled from the spec (§4.5): the 64-bit component mix used by
`float3::hash` on one rational "float" value. -/
def hashQ (q : ℚ) : ℕ :=
  (q.num.natAbs * 2 + (if q.num < 0 then 1 else 0)) * 2654435761 + q.den * 40503

/-- Modelled from the spec (§4.5): `float3::hash`, a deterministic 64-bit
integer hash of the 3 components ("integer hash of the 3-component
barycentric coordinate"); the exact mixing is an implementation choice (§9). -/
def float3_hash (v : V3) : ℕ :=
  (hashQ v.x * 1299721 + hashQ v.y * 850177 + hashQ v.z * 735391) % 18446744073709551616

/-- The C cast of an unsigned 64-bit value to a 32-bit `int` (two's-complement
wrap), as in `(int)(bary_coords.hash())`. -/
def toInt32 (n : ℕ) : ℤ :=
  ((n % 4294967296 : ℕ) : ℤ) - (if 2147483648 ≤ n % 4294967296 then 4294967296 else 0)

/-- Modelled from the spec (§§4.2, 4.5, 4.6): the external `BLI_math` routines
the node calls but whose implementations are outside the excerpt — triangle
area (`area_tri_v3`), flat triangle normal (`normal_tri_v3`), and the two
rotation helpers used by `normal_to_euler_rotation` (`vec_to_quat` with the
fixed `OB_NEGZ, OB_POSY` axes, and `quat_to_eul`).  The algorithms are
parametric in them. -/
structure ExternalLib where
  area_tri_v3 : V3 → V3 → V3 → ℚ
  normal_tri_v3 : V3 → V3 → V3 → V3
  vec_to_quat_negz_posy : V3 → Q4
  quat_to_eul : Q4 → V3

/-- `normal_to_euler_rotation` from the source: quaternion from the normal via
the fixed axis choice, then Euler angles from the quaternion. -/
def normal_to_euler_rotation (lib : ExternalLib) (normal : V3) : V3 :=
  lib.quat_to_eul (lib.vec_to_quat_negz_posy normal)

/-- The cross product `(b - a) × (c - a)` of a triangle's edge vectors. -/
def tri_cross (a b c : V3) : V3 :=
  ⟨(b.y - a.y) * (c.z - a.z) - (b.z - a.z) * (c.y - a.y),
   (b.z - a.z) * (c.x - a.x) - (b.x - a.x) * (c.z - a.z),
   (b.x - a.x) * (c.y - a.y) - (b.y - a.y) * (c.x - a.x)⟩

/-- A concrete instantiation of the external library used to exercise the
development on closed inputs.  Its "area" is half the L1 norm of the edge
cross product — a rational quantity that is zero exactly on degenerate
triangles — and its rotation helpers are simple total functions. -/
def demoLib : ExternalLib where
  area_tri_v3 := fun a b c =>
    (|(tri_cross a b c).x| + |(tri_cross a b c).y| + |(tri_cross a b c).z|) / 2
  normal_tri_v3 := tri_cross
  vec_to_quat_negz_posy := fun n => ⟨1, n.x, n.y, n.z⟩
  quat_to_eul := fun q => ⟨q.x, q.y, q.z⟩

/-- Resolve one looptri's three vertex indices: `mesh->mloop[looptri.tri[i]].v`. -/
def looptri_vert_indices (m : Mesh) (t : ℕ) : ℕ × ℕ × ℕ :=
  let lt := m.looptris.getD t default
  (m.mloop.getD lt.tri0 0, m.mloop.getD lt.tri1 0, m.mloop.getD lt.tri2 0)

/-- Resolve one looptri's three vertex positions: `mesh->mvert[v_index].co`. -/
def looptri_verts (m : Mesh) (t : ℕ) : V3 × V3 × V3 :=
  let vi := looptri_vert_indices m t
  (m.mvert.getD vi.1 v3zero, m.mvert.getD vi.2.1 v3zero, m.mvert.getD vi.2.2 v3zero)

/-- The three per-vertex density factors of one looptri, read from the density
attribute at the resolved vertex indices. -/
def looptri_vert_factors (m : Mesh) (df : ℕ → ℚ) (t : ℕ) : ℚ × ℚ × ℚ :=
  let vi := looptri_vert_indices m t
  (df vi.1, df vi.2.1, df vi.2.2)

/-- The stochastically rounded integer point count:
`(int)points_amount_fl + (int)add_point` with
`add_point = (fractf(points_amount_fl) > u)`, `u` the first uniform draw of
the triangle's stream. -/
def point_amount (amt u : ℚ) : ℤ :=
  c_trunc amt + (if fractf amt > u then 1 else 0)

/-- The candidate points one triangle contributes in
`initial_uniform_distribution`: seed the triangle's own stream, stochastically
round `area * density`, then draw one barycentric coordinate per emitted
point; each candidate carries its position, barycentric coordinate and source
triangle index, in generation order. -/
def uniform_tri_points (lib : ExternalLib) (verts : V3 × V3 × V3) (density : ℚ)
    (seed : ℤ) (t : ℕ) : List (V3 × V3 × ℕ) :=
  let s := triStream t seed
  let area := lib.area_tri_v3 verts.1 verts.2.1 verts.2.2
  let points_amount_fl := area * density
  let amount := point_amount points_amount_fl (s 0)
  (List.range amount.toNat).map (fun i =>
    let bary := get_barycentric (s (1 + 2 * i)) (s (2 + 2 * i))
    (interp_v3 verts.1 verts.2.1 verts.2.2 bary, bary, t))

/-- `initial_uniform_distribution`: the concatenation, in triangle order, of
every triangle's candidate points (the source's three parallel output vectors
are the three component projections of this list). -/
def initial_uniform_distribution (lib : ExternalLib) (m : Mesh) (density : ℚ)
    (seed : ℤ) : List (V3 × V3 × ℕ) :=
  (List.range m.looptris.length).flatMap
    (fun t => uniform_tri_points lib (looptri_verts m t) density seed t)

/-- `looptri_density_factor` from the source: the arithmetic mean of the three
per-vertex density factors, each first clamped to `0` from below
(`std::max(0.0f, density_factors[v_index])`). -/
def looptri_density_factor (f0 f1 f2 : ℚ) : ℚ :=
  (max 0 f0 + max 0 f1 + max 0 f2) / 3

/-- `points_amount_fl` as computed in Random mode:
`area * density * looptri_density_factor`. -/
def random_points_amount_fl (area density f0 f1 f2 : ℚ) : ℚ :=
  area * density * looptri_density_factor f0 f1 f2

/-- The output points (position, stable id, flat normal) one triangle
contributes in `random_scatter_points_from_mesh`; the stable id is computed
inline as `(int)(bary_coords.hash()) + looptri_index`. -/
def random_tri_points (lib : ExternalLib) (verts : V3 × V3 × V3)
    (factors : ℚ × ℚ × ℚ) (density : ℚ) (seed : ℤ) (t : ℕ) : List (V3 × ℤ × V3) :=
  let s := triStream t seed
  let area := lib.area_tri_v3 verts.1 verts.2.1 verts.2.2
  let amt := random_points_amount_fl area density factors.1 factors.2.1 factors.2.2
  let amount := point_amount amt (s 0)
  (List.range amount.toNat).map (fun i =>
    let bary := get_barycentric (s (1 + 2 * i)) (s (2 + 2 * i))
    (interp_v3 verts.1 verts.2.1 verts.2.2 bary,
     toInt32 (float3_hash bary) + (t : ℤ),
     lib.normal_tri_v3 verts.1 verts.2.1 verts.2.2))

/-- `random_scatter_points_from_mesh`: the concatenation, in triangle order,
of every triangle's emitted points (the source's returned `points` vector and
its `r_ids`/`r_normals` output vectors are the component projections). -/
def random_scatter_points_from_mesh (lib : ExternalLib) (m : Mesh) (density : ℚ)
    (density_factors : ℕ → ℚ) (seed : ℤ) : List (V3 × ℤ × V3) :=
  (List.range m.looptris.length).flatMap
    (fun t => random_tri_points lib (looptri_verts m t)
      (looptri_vert_factors m density_factors t) density seed t)

/-- Modelled from the spec (§4.3): the proximity-index radius query predicate —
candidate `j` is in the tree (the tree holds exactly the `ps.length`
candidates) and lies within radius `d` of the query center `i`; stated on
squared distances. -/
def in_range (ps : List V3) (d : ℚ) (i j : ℕ) : Prop :=
  j < ps.length ∧ dist2 (ps.getD i v3zero) (ps.getD j v3zero) ≤ d ^ 2

instance (ps : List V3) (d : ℚ) (i j : ℕ) : Decidable (in_range ps d i j) := by
  unfold in_range; infer_instance

theorem in_range_symm (ps : List V3) (d : ℚ) {i j : ℕ} (hi : i < ps.length)
    (h : in_range ps d i j) : in_range ps d j i :=
  ⟨hi, by rw [dist2_comm]; exact h.2⟩

/-- One iteration of the elimination pass (the loop body of
`create_elimination_mask_for_close_points`): an already-eliminated candidate
is skipped, otherwise every other candidate within the radius is marked. -/
def elim_step (ps : List V3) (d : ℚ) (mask : ℕ → Bool) (i : ℕ) : ℕ → Bool :=
  if mask i then mask
  else fun j => mask j || (decide (j ≠ i) && decide (in_range ps d i j))

/-- The elimination mask after the first `k` iterations of the pass, starting
from the all-`false` mask. -/
def elim_mask_after (ps : List V3) (d : ℚ) (k : ℕ) : ℕ → Bool :=
  (List.range k).foldl (elim_step ps d) (fun _ => false)

/-- `create_elimination_mask_for_close_points`: process candidates in
increasing original index order; a candidate already marked eliminated is
skipped, a surviving candidate marks every other candidate within
`minimum_distance` as eliminated. -/
def create_elimination_mask_for_close_points (ps : List V3) (d : ℚ) : ℕ → Bool :=
  elim_mask_after ps d ps.length

theorem elim_mask_after_succ (ps : List V3) (d : ℚ) (k : ℕ) :
    elim_mask_after ps d (k + 1) = elim_step ps d (elim_mask_after ps d k) k := by
  unfold elim_mask_after
  rw [List.range_succ, List.foldl_append]
  rfl

theorem elim_step_val (ps : List V3) (d : ℚ) (mask : ℕ → Bool) (i j : ℕ) :
    elim_step ps d mask i j =
      (mask j || (!(mask i) && (decide (j ≠ i) && decide (in_range ps d i j)))) := by
  unfold elim_step
  by_cases h : mask i <;> simp [h]

theorem elim_mask_after_succ_val (ps : List V3) (d : ℚ) (k j : ℕ) :
    elim_mask_after ps d (k + 1) j =
      (elim_mask_after ps d k j ||
        (!(elim_mask_after ps d k k) && (decide (j ≠ k) && decide (in_range ps d k j)))) := by
  rw [elim_mask_after_succ, elim_step_val]

theorem elim_mask_mono (ps : List V3) (d : ℚ) {k k' j : ℕ} (h : k ≤ k')
    (hj : elim_mask_after ps d k j = true) : elim_mask_after ps d k' j = true := by
  induction k' with
  | zero =>
    cases Nat.le_zero.mp h
    exact hj
  | succ n ih =>
    rcases Nat.lt_or_ge k (n + 1) with hlt | hge
    · have := ih (Nat.lt_succ_iff.mp hlt)
      rw [elim_mask_after_succ_val, this, Bool.true_or]
    · cases Nat.le_antisymm h hge
      exact hj

theorem elim_mask_sealed (ps : List V3) (d : ℚ) {k m : ℕ} (hk : k ≤ m)
    (hm : m ≤ ps.length) :
    elim_mask_after ps d m k = elim_mask_after ps d k k := by
  induction m with
  | zero =>
    cases Nat.le_zero.mp hk
    rfl
  | succ n ih =>
    rcases Nat.lt_or_ge k (n + 1) with hlt | hge
    · have hkn : k ≤ n := Nat.lt_succ_iff.mp hlt
      have hn : n ≤ ps.length := le_trans (Nat.le_succ n) hm
      have ihn := ih hkn hn
      rw [elim_mask_after_succ_val, ihn]
      by_cases hkk : elim_mask_after ps d k k = true
      · rw [hkk, Bool.true_or]
      · rw [Bool.not_eq_true] at hkk
        rw [hkk, Bool.false_or]
        by_cases hterm :
            (!(elim_mask_after ps d n n) && (decide (k ≠ n) && decide (in_range ps d n k))) = true
        · exfalso
          simp only [Bool.and_eq_true, Bool.not_eq_true', decide_eq_true_iff] at hterm
          obtain ⟨hnn, hkne, hrnk⟩ := hterm
          have hknlt : k < n := lt_of_le_of_ne hkn hkne
          have hnlen : n < ps.length := Nat.lt_of_succ_le hm
          have hrkn : in_range ps d k n := by
            refine ⟨hnlen, ?_⟩
            rw [dist2_comm]
            exact hrnk.2
          have hmark : elim_mask_after ps d (k + 1) n = true := by
            rw [elim_mask_after_succ_val, hkk]
            simp only [Bool.not_false, Bool.true_and]
            have h1 : decide (n ≠ k) = true := decide_eq_true (Nat.ne_of_gt hknlt)
            have h2 : decide (in_range ps d k n) = true := decide_eq_true hrkn
            rw [h1, h2, Bool.and_self, Bool.or_true]
          have := elim_mask_mono ps d (Nat.succ_le_of_lt hknlt) hmark
          rw [this] at hnn
          exact Bool.noConfusion hnn
        · rw [Bool.not_eq_true] at hterm
          rw [hterm]
    · cases Nat.le_antisymm hk hge
      rfl

theorem elim_mask_iff (ps : List V3) (d : ℚ) (m j : ℕ) :
    elim_mask_after ps d m j = true ↔
      ∃ k, k < m ∧ elim_mask_after ps d k k = false ∧ j ≠ k ∧ in_range ps d k j := by
  induction m with
  | zero =>
    constructor
    · intro h
      exact absurd h (by simp [elim_mask_after])
    · rintro ⟨k, hk, -⟩
      exact absurd hk (Nat.not_lt_zero k)
  | succ n ih =>
    rw [elim_mask_after_succ_val]
    constructor
    · intro h
      rcases Bool.or_eq_true_iff.mp h with h1 | h2
      · obtain ⟨k, hk, hrest⟩ := ih.mp h1
        exact ⟨k, Nat.lt_succ_of_lt hk, hrest⟩
      · simp only [Bool.and_eq_true, Bool.not_eq_true', decide_eq_true_iff] at h2
        exact ⟨n, Nat.lt_succ_self n, h2.1, h2.2.1, h2.2.2⟩
    · rintro ⟨k, hk, hkk, hne, hr⟩
      rcases Nat.lt_succ_iff_lt_or_eq.mp hk with hlt | heq
      · rw [ih.mpr ⟨k, hlt, hkk, hne, hr⟩, Bool.true_or]
      · subst heq
        rw [hkk]
        simp only [Bool.not_false, Bool.true_and]
        rw [decide_eq_true hne, decide_eq_true hr, Bool.and_self, Bool.or_true]

/-- Characterization of the final elimination mask: a candidate is eliminated
exactly when some retained candidate with a strictly lower original index lies
within the minimum distance of it.  This is the greedy lower-index-wins
discipline of the pass. -/
theorem create_elimination_mask_char (ps : List V3) (d : ℚ) {j : ℕ}
    (hj : j < ps.length) :
    create_elimination_mask_for_close_points ps d j = true ↔
      ∃ k, k < j ∧ create_elimination_mask_for_close_points ps d k = false ∧
        in_range ps d k j := by
  unfold create_elimination_mask_for_close_points
  constructor
  · intro h
    have hseal : elim_mask_after ps d ps.length j = elim_mask_after ps d j j :=
      elim_mask_sealed ps d hj.le (le_refl _)
    rw [hseal] at h
    obtain ⟨k, hk, hkk, _, hr⟩ := (elim_mask_iff ps d j j).mp h
    refine ⟨k, hk, ?_, hr⟩
    rw [elim_mask_sealed ps d (le_of_lt (lt_trans hk hj)) (le_refl _)]
    exact hkk
  · rintro ⟨k, hkj, hk, hr⟩
    have hkk : elim_mask_after ps d k k = false := by
      rw [← elim_mask_sealed ps d (le_of_lt (lt_trans hkj hj)) (le_refl _)]
      exact hk
    exact (elim_mask_iff ps d ps.length j).mpr
      ⟨k, lt_trans hkj hj, hkk, Nat.ne_of_gt hkj, hr⟩

variable {α β : Type _}

/-- `Vector::remove_and_reorder(i)`: overwrite slot `i` with the last element
and shrink by one (an order-destroying removal). -/
def remove_and_reorder (arr : List α) (i : ℕ) : List α :=
  match arr.getLast? with
  | none => arr
  | some last => (arr.set i last).dropLast

/-- The loop of `eliminate_points_based_on_mask`, iterating original indices
`i-1, i-2, …, 0` downward and removing every masked index with
`remove_and_reorder`. -/
def eliminate_loop (mask : List Bool) : ℕ → List α → List α
  | 0, arr => arr
  | i + 1, arr =>
    eliminate_loop mask i (if mask.getD i false then remove_and_reorder arr i else arr)

/-- `eliminate_points_based_on_mask`, applied to one of the three parallel
candidate arrays. -/
def eliminate_points_based_on_mask (mask : List Bool) (arr : List α) : List α :=
  eliminate_loop mask arr.length arr

/-- The candidates a mask retains, in original order: the reference (stable)
compaction the unstable one is compared against. -/
def keep_by_mask (mask : List Bool) (arr : List α) : List α :=
  ((arr.zip mask).filter (fun p => !p.2)).map Prod.fst

theorem remove_and_reorder_map (f : α → β) (arr : List α) (i : ℕ) :
    remove_and_reorder (arr.map f) i = (remove_and_reorder arr i).map f := by
  unfold remove_and_reorder
  cases harr : arr.getLast? with
  | none =>
    rw [List.getLast?_eq_none_iff] at harr
    subst harr
    rfl
  | some last =>
    rw [List.getLast?_map, harr]
    simp [List.map_set, List.map_dropLast]

theorem eliminate_loop_map (f : α → β) (mask : List Bool) :
    ∀ (i : ℕ) (arr : List α),
      eliminate_loop mask i (arr.map f) = (eliminate_loop mask i arr).map f := by
  intro i
  induction i with
  | zero => intro arr; rfl
  | succ n ih =>
    intro arr
    unfold eliminate_loop
    by_cases h : mask.getD n false
    · rw [if_pos h, if_pos h, remove_and_reorder_map, ih]
    · rw [if_neg h, if_neg h, ih]

/-- The unstable compaction commutes with mapping: applying the same
mask-driven removals to a projected array equals projecting the compacted
array.  This is what keeps the three parallel arrays aligned. -/
theorem eliminate_points_map (f : α → β) (mask : List Bool) (arr : List α) :
    eliminate_points_based_on_mask mask (arr.map f) =
      (eliminate_points_based_on_mask mask arr).map f := by
  unfold eliminate_points_based_on_mask
  rw [List.length_map]
  exact eliminate_loop_map f mask arr.length arr

theorem keep_by_mask_take_succ (mask : List Bool) (arr : List α) (i : ℕ)
    (hm : i < mask.length) (ha : i < arr.length) :
    keep_by_mask (mask.take (i + 1)) (arr.take (i + 1)) =
      keep_by_mask (mask.take i) (arr.take i) ++
        (if mask.get ⟨i, hm⟩ then [] else [arr.get ⟨i, ha⟩]) := by
  unfold keep_by_mask
  rw [List.take_succ, List.take_succ]
  rw [List.getElem?_eq_getElem hm, List.getElem?_eq_getElem ha]
  rw [List.zip_append (by simp [Nat.min_eq_left, le_of_lt ha, le_of_lt hm])]
  rw [List.filter_append, List.map_append]
  congr 1
  simp only [Option.toList_some, List.zip_cons_cons, List.zip_nil_right]
  by_cases h : mask.get ⟨i, hm⟩
  · rw [List.get_eq_getElem] at h
    simp [h]
  · rw [Bool.not_eq_true, List.get_eq_getElem] at h
    simp [h]

theorem eliminate_loop_perm (mask : List Bool) :
    ∀ (i : ℕ) (arr : List α), i ≤ arr.length → i ≤ mask.length →
      (eliminate_loop mask i arr).Perm
        (keep_by_mask (mask.take i) (arr.take i) ++ arr.drop i) := by
  intro i
  induction i with
  | zero =>
    intro arr _ _
    simp [eliminate_loop, keep_by_mask]
  | succ n ih =>
    intro arr ha hm
    have han : n < arr.length := Nat.lt_of_succ_le ha
    have hmn : n < mask.length := Nat.lt_of_succ_le hm
    have hgetD : mask.getD n false = mask.get ⟨n, hmn⟩ := by
      rw [List.getD_eq_getElem?_getD, List.getElem?_eq_getElem hmn]
      rfl
    unfold eliminate_loop
    by_cases h : mask.getD n false
    · -- index n is masked: remove it with a swap-removal
      rw [if_pos h]
      have harrne : arr ≠ [] := List.ne_nil_of_length_pos (Nat.lt_of_le_of_lt (Nat.zero_le n) han)
      have hlast : arr.getLast? = some (arr.getLast harrne) := List.getLast?_eq_getLast arr harrne
      have hset : arr.set n (arr.getLast harrne) =
          arr.take n ++ arr.getLast harrne :: arr.drop (n + 1) := by
        rw [List.set_eq_take_append_cons_drop, if_pos han]
      have harr' : remove_and_reorder arr n =
          arr.take n ++ (arr.getLast harrne :: arr.drop (n + 1)).dropLast := by
        unfold remove_and_reorder
        rw [hlast]
        show (arr.set n (arr.getLast harrne)).dropLast = _
        rw [hset, List.dropLast_append_of_ne_nil _ (by simp)]
      have hlentake : (arr.take n).length = n := by
        rw [List.length_take]
        exact Nat.min_eq_left (le_of_lt han)
      rw [keep_by_mask_take_succ mask arr n hmn han, ← hgetD, if_pos h, List.append_nil]
      by_cases hD : arr.drop (n + 1) = []
      · -- n is the last index: the removal is a plain pop
        have harr'2 : remove_and_reorder arr n = arr.take n := by
          rw [harr', hD]
          simp
        rw [harr'2]
        have := ih (arr.take n) (by rw [hlentake]) (le_of_lt hmn)
        rw [List.take_take, Nat.min_self, List.drop_eq_nil_of_le (by rw [hlentake]),
          List.append_nil] at this
        rw [hD, List.append_nil]
        exact this
      · -- the last element is swapped into slot n
        have hDne : arr.drop (n + 1) ≠ [] := hD
        have hlastdrop : (arr.drop (n + 1)).getLast hDne = arr.getLast harrne := by
          have hsplit : arr.take (n + 1) ++ arr.drop (n + 1) = arr := List.take_append_drop _ _
          have h1 : arr.getLast? = (arr.drop (n + 1)).getLast? := by
            conv_lhs => rw [← hsplit]
            rw [List.getLast?_append_of_ne_nil _ hDne]
          rw [List.getLast?_eq_getLast _ hDne] at h1
          rw [hlast] at h1
          exact (Option.some_injective _ h1).symm
        have harr'3 : remove_and_reorder arr n =
            arr.take n ++ arr.getLast harrne :: (arr.drop (n + 1)).dropLast := by
          rw [harr', List.dropLast_cons_of_ne_nil hDne]
        have hlen' : n ≤ (remove_and_reorder arr n).length := by
          rw [harr'3, List.length_append, hlentake]
          exact Nat.le_add_right n _
        have htake' : (remove_and_reorder arr n).take n = arr.take n := by
          rw [harr'3, List.take_left' hlentake]
        have hdrop' : (remove_and_reorder arr n).drop n =
            arr.getLast harrne :: (arr.drop (n + 1)).dropLast := by
          rw [harr'3, List.drop_left' hlentake]
        have := ih (remove_and_reorder arr n) hlen' (le_of_lt hmn)
        rw [htake', hdrop'] at this
        refine this.trans ?_
        refine List.Perm.append_left _ ?_
        -- `getLast :: dropLast ~ the dropped suffix`
        have hrot : arr.drop (n + 1) =
            (arr.drop (n + 1)).dropLast ++ [arr.getLast harrne] := by
          conv_lhs => rw [← List.dropLast_append_getLast hDne]
          rw [hlastdrop]
        conv_rhs => rw [hrot]
        exact @List.perm_append_comm _ [arr.getLast harrne] ((arr.drop (n + 1)).dropLast)
    · -- index n survives: nothing is removed
      rw [if_neg h]
      have := ih arr (le_of_lt han) (le_of_lt hmn)
      refine this.trans ?_
      rw [keep_by_mask_take_succ mask arr n hmn han, ← hgetD, if_neg h]
      rw [List.drop_eq_getElem_cons han, List.append_assoc]
      simp [List.get_eq_getElem]

/-- The unstable compaction removes exactly the masked candidates: its result
is a permutation of the mask-filtered original array. -/
theorem eliminate_points_perm (mask : List Bool) (arr : List α)
    (h : mask.length = arr.length) :
    (eliminate_points_based_on_mask mask arr).Perm (keep_by_mask mask arr) := by
  have hperm := eliminate_loop_perm mask arr.length arr (le_refl _) (le_of_eq h.symm)
  have htake : mask.take arr.length = mask := by
    rw [← h]
    exact List.take_length mask
  rw [List.drop_length, List.append_nil, List.take_length, htake] at hperm
  exact hperm

theorem mem_keep_by_mask [Inhabited α] (g : ℕ → Bool) :
    ∀ (arr : List α) {b : α},
      b ∈ keep_by_mask ((List.range arr.length).map g) arr →
      ∃ j, j < arr.length ∧ g j = false ∧ b = arr.getD j default := by
  intro arr
  induction arr generalizing g with
  | nil =>
    intro b hb
    exact absurd hb (by simp [keep_by_mask])
  | cons a tl ih =>
    intro b hb
    rw [List.length_cons, List.range_succ_eq_map, List.map_cons, List.map_map] at hb
    unfold keep_by_mask at hb
    rw [List.zip_cons_cons] at hb
    by_cases h0 : g 0
    · rw [List.filter_cons_of_neg (by simp [h0])] at hb
      obtain ⟨j, hj, hgj, hbj⟩ := ih (g := g ∘ Nat.succ) hb
      exact ⟨j + 1, Nat.succ_lt_succ hj, hgj, hbj⟩
    · rw [Bool.not_eq_true] at h0
      rw [List.filter_cons_of_pos (by simp [h0])] at hb
      rw [List.map_cons, List.mem_cons] at hb
      rcases hb with hb | hb
      · exact ⟨0, Nat.succ_pos _, h0, hb⟩
      · obtain ⟨j, hj, hgj, hbj⟩ := ih (g := g ∘ Nat.succ) hb
        exact ⟨j + 1, Nat.succ_lt_succ hj, hgj, hbj⟩

theorem keep_by_mask_pairwise [Inhabited α] {R : α → α → Prop} (g : ℕ → Bool) :
    ∀ (arr : List α),
      (∀ i j, i < j → j < arr.length → g i = false → g j = false →
        R (arr.getD i default) (arr.getD j default)) →
      (keep_by_mask ((List.range arr.length).map g) arr).Pairwise R := by
  intro arr
  induction arr generalizing g with
  | nil =>
    intro _
    simp [keep_by_mask]
  | cons a tl ih =>
    intro hR
    rw [List.length_cons, List.range_succ_eq_map, List.map_cons, List.map_map]
    unfold keep_by_mask
    rw [List.zip_cons_cons]
    have htl : (keep_by_mask ((List.range tl.length).map (g ∘ Nat.succ)) tl).Pairwise R := by
      refine ih (g := g ∘ Nat.succ) ?_
      intro i j hij hj hgi hgj
      have := hR (i + 1) (j + 1) (Nat.succ_lt_succ hij) (Nat.succ_lt_succ hj) hgi hgj
      simpa using this
    by_cases h0 : g 0
    · rw [List.filter_cons_of_neg (by simp [h0])]
      exact htl
    · rw [Bool.not_eq_true] at h0
      rw [List.filter_cons_of_pos (by simp [h0])]
      rw [List.map_cons]
      refine List.Pairwise.cons ?_ htl
      intro b hb
      obtain ⟨j, hj, hgj, hbj⟩ := mem_keep_by_mask (g ∘ Nat.succ) tl hb
      have := hR 0 (j + 1) (Nat.succ_pos _) (Nat.succ_lt_succ hj) h0 hgj
      simpa [hbj] using this

/-- `compute_remaining_point_data`: after compaction, recompute for every
surviving candidate its flat triangle normal and its stable id
`(int)(bary_coord.hash()) + looptri_index` (the deferred id recomputation of
the minimum-distance mode). -/
def compute_remaining_point_data (lib : ExternalLib) (m : Mesh)
    (bary_coords : List V3) (looptri_indices : List ℕ) : List V3 × List ℤ :=
  ((List.range bary_coords.length).map (fun i =>
      let t := looptri_indices.getD i 0
      let verts := looptri_verts m t
      lib.normal_tri_v3 verts.1 verts.2.1 verts.2.2),
   (List.range bary_coords.length).map (fun i =>
      toInt32 (float3_hash (bary_coords.getD i v3zero)) +
        (looptri_indices.getD i 0 : ℤ)))

/-- The data `stable_random_scatter_with_minimum_distance` produces: the three
compacted parallel candidate arrays plus the recomputed normals and ids. -/
structure DistributeResult where
  positions : List V3
  bary_coords : List V3
  looptri_indices : List ℕ
  normals : List V3
  ids : List ℤ

set_option linter.unusedVariables false in
/-- `stable_random_scatter_with_minimum_distance`: uniform scatter at the
constant max density, elimination-mask creation, compaction of the three
parallel arrays, then recomputation of normals and ids for the survivors.
The `density_factors` attribute is received (the source signature takes it)
but this mode makes no use of it. -/
def stable_random_scatter_with_minimum_distance (lib : ExternalLib) (m : Mesh)
    (max_density minimum_distance : ℚ) (density_factors : ℕ → ℚ) (seed : ℤ) :
    DistributeResult :=
  let cand := initial_uniform_distribution lib m max_density seed
  let positions := cand.map (fun c => c.1)
  let bary_coords := cand.map (fun c => c.2.1)
  let looptri_indices := cand.map (fun c => c.2.2)
  let mask := (List.range positions.length).map
    (create_elimination_mask_for_close_points positions minimum_distance)
  let positions2 := eliminate_points_based_on_mask mask positions
  let bary2 := eliminate_points_based_on_mask mask bary_coords
  let tris2 := eliminate_points_based_on_mask mask looptri_indices
  let nd := compute_remaining_point_data lib m bary2 tris2
  ⟨positions2, bary2, tris2, nd.1, nd.2⟩

/-- The distribution method selector stored in `node->custom1`. -/
inductive DistributeMethod
  | random
  | poisson
  deriving DecidableEq

/-- The node's extracted inputs.  `geometry` is `none` when the input
geometry set has no (valid) mesh; `density_factors` models the resolved
attribute read `attribute_get_for_read(density_attribute, …, 1.0f)` (a total
per-vertex function with default fill). -/
structure GeoNodeParams where
  geometry : Option Mesh
  distance_min : ℚ
  density_max : ℚ
  density_factors : ℕ → ℚ
  seed : ℤ

/-- The output point cloud with its per-point attributes. -/
structure PointCloudOut where
  positions : List V3
  radius : List ℚ
  ids : List ℤ
  normals : List V3
  rotations : List V3

/-- The empty output point set produced by the degenerate-input early
returns. -/
def emptyPointCloudOut : PointCloudOut := ⟨[], [], [], [], []⟩

/-- `geo_node_point_distribute_exec`: early empty-output returns for a missing
mesh and for non-positive max density, then the mode dispatch, then the
construction of the output point cloud (positions, constant radius `0.05`,
stable ids, normals, and rotations derived from the normals). -/
def geo_node_point_distribute_exec (lib : ExternalLib) (method : DistributeMethod)
    (p : GeoNodeParams) : PointCloudOut :=
  match p.geometry with
  | none => emptyPointCloudOut
  | some mesh =>
    if p.density_max ≤ 0 then emptyPointCloudOut
    else
      match method with
      | .random =>
        let pts := random_scatter_points_from_mesh lib mesh p.density_max
          p.density_factors p.seed
        let positions := pts.map (fun c => c.1)
        let ids := pts.map (fun c => c.2.1)
        let normals := pts.map (fun c => c.2.2)
        ⟨positions, List.replicate positions.length (1 / 20), ids, normals,
         normals.map (normal_to_euler_rotation lib)⟩
      | .poisson =>
        let r := stable_random_scatter_with_minimum_distance lib mesh p.density_max
          p.distance_min p.density_factors p.seed
        ⟨r.positions, List.replicate r.positions.length (1 / 20), r.ids, r.normals,
         r.normals.map (normal_to_euler_rotation lib)⟩

/- Helper lemmas shared by the claim theorems. -/

theorem rat_floor_eq (q : ℚ) : (q.floor : ℤ) = ⌊q⌋ := by
  rw [Rat.floor_def', ← Rat.floor_def]

theorem getD_map_range {γ : Type _} (f : ℕ → γ) {n i : ℕ} (h : i < n) (d : γ) :
    ((List.range n).map f).getD i d = f i := by
  rw [List.getD_eq_getElem?_getD, List.getElem?_map, List.getElem?_range h]
  rfl

/-- After the elimination pass and compaction, the retained candidate
positions are pairwise more than the minimum distance apart (on squared
distances). -/
theorem eliminated_positions_pairwise (ps : List V3) (d : ℚ) :
    (eliminate_points_based_on_mask
      ((List.range ps.length).map (create_elimination_mask_for_close_points ps d))
      ps).Pairwise (fun p q => d ^ 2 ≤ dist2 p q) := by
  have hlen : ((List.range ps.length).map
      (create_elimination_mask_for_close_points ps d)).length = ps.length := by
    simp
  have hperm := eliminate_points_perm _ ps hlen
  have hkeep : (keep_by_mask ((List.range ps.length).map
      (create_elimination_mask_for_close_points ps d)) ps).Pairwise
      (fun p q => d ^ 2 ≤ dist2 p q) := by
    refine keep_by_mask_pairwise _ ps ?_
    intro i j hij hj hgi hgj
    by_contra hlt
    push_neg at hlt
    have hin : in_range ps d i j := ⟨hj, le_of_lt hlt⟩
    have := (create_elimination_mask_char ps d hj).mpr ⟨i, hij, hgi, hin⟩
    rw [this] at hgj
    exact Bool.noConfusion hgj
  have hsymm : ∀ {p q : V3}, d ^ 2 ≤ dist2 p q → d ^ 2 ≤ dist2 q p := by
    intro p q hpq
    rwa [dist2_comm]
  exact (hperm.pairwise_iff hsymm).mpr hkeep

/-- C1: In minimum-distance (Poisson) mode, after the elimination pass and
compaction, every pair of distinct surviving candidate points is at least
`minimum_distance` apart.  Stated on squared distances, which is equivalent
for the non-negative distance parameter because squaring is monotone on
non-negatives. -/
theorem C1_survivors_respect_min_distance (lib : ExternalLib) (m : Mesh)
    (max_density minimum_distance : ℚ) (density_factors : ℕ → ℚ) (seed : ℤ) :
    (stable_random_scatter_with_minimum_distance lib m max_density
      minimum_distance density_factors seed).positions.Pairwise
      (fun p q => minimum_distance ^ 2 ≤ dist2 p q) := by
  unfold stable_random_scatter_with_minimum_distance
  dsimp only
  exact eliminated_positions_pairwise _ _

/-- C2: the elimination pass processes candidates in increasing original
index order and the lower index always wins.  First conjunct: a candidate's
final mask value is already determined by the iterations strictly before its
own index (so a higher-indexed candidate never changes a lower-indexed
candidate's fate).  Second conjunct: for two candidates within the minimum
distance of each other, if nothing before the lower-indexed one is within
range of it, the lower-indexed candidate is retained and the higher-indexed
one is eliminated. -/
theorem C2_lower_index_wins :
    (∀ (ps : List V3) (d : ℚ) (i : ℕ), i ≤ ps.length →
      create_elimination_mask_for_close_points ps d i = elim_mask_after ps d i i) ∧
    (∀ (ps : List V3) (d : ℚ) (i j : ℕ), i < j → j < ps.length →
      in_range ps d i j →
      (∀ k, k < i → ¬in_range ps d k i) →
      create_elimination_mask_for_close_points ps d i = false ∧
      create_elimination_mask_for_close_points ps d j = true) := by
  constructor
  · intro ps d i hi
    exact elim_mask_sealed ps d hi (le_refl _)
  · intro ps d i j hij hj hin hbefore
    have hi : i < ps.length := lt_trans hij hj
    have hifalse : create_elimination_mask_for_close_points ps d i = false := by
      by_contra htrue
      rw [Bool.not_eq_false] at htrue
      obtain ⟨k, hki, -, hkin⟩ := (create_elimination_mask_char ps d hi).mp htrue
      exact hbefore k hki hkin
    refine ⟨hifalse, ?_⟩
    exact (create_elimination_mask_char ps d hj).mpr ⟨i, hij, hifalse, hin⟩

/-- Eight concrete candidate points; only indices 3 and 7 are mutually close
(distance 1/10), all others are far apart. -/
def ps8 : List V3 :=
  [⟨100, 0, 0⟩, ⟨110, 0, 0⟩, ⟨120, 0, 0⟩, ⟨0, 0, 0⟩,
   ⟨140, 0, 0⟩, ⟨150, 0, 0⟩, ⟨160, 0, 0⟩, ⟨1 / 10, 0, 0⟩]

theorem C2_lower_index_wins_witness :
    create_elimination_mask_for_close_points ps8 1 3 = false ∧
    create_elimination_mask_for_close_points ps8 1 7 = true :=
  C2_lower_index_wins.2 ps8 1 3 7 (by norm_num) (by norm_num [ps8])
    (by
      constructor
      · norm_num [ps8]
      · norm_num [ps8, dist2, List.getD])
    (by
      intro k hk
      interval_cases k
      all_goals
        rintro ⟨-, hd⟩
        norm_num [ps8, dist2, List.getD] at hd)

/-- C5: the unstable compaction keeps the three parallel candidate arrays
aligned and removes exactly the masked candidates.  First conjunct: the
swap-removal procedure commutes with any projection, so applying it (with one
fixed mask) to each of the parallel arrays is the same as compacting the list
of whole candidate records and projecting afterwards — index `k` of every
compacted array describes the same surviving candidate.  Second conjunct: the
compacted array is a permutation of the mask-filtered original, so every
surviving candidate appears exactly once and every masked candidate is
removed. -/
theorem C5_compaction_alignment {α β : Type} :
    (∀ (f : α → β) (mask : List Bool) (arr : List α),
      eliminate_points_based_on_mask mask (arr.map f) =
        (eliminate_points_based_on_mask mask arr).map f) ∧
    (∀ (mask : List Bool) (arr : List α), mask.length = arr.length →
      (eliminate_points_based_on_mask mask arr).Perm (keep_by_mask mask arr)) :=
  ⟨fun f mask arr => eliminate_points_map f mask arr,
   fun mask arr h => eliminate_points_perm mask arr h⟩

theorem C5_compaction_alignment_witness :
    (eliminate_points_based_on_mask [true, false, true, false] [10, 20, 30, 40]).Perm
      (keep_by_mask [true, false, true, false] [10, 20, 30, 40]) :=
  (@C5_compaction_alignment ℕ ℕ).2 [true, false, true, false] [10, 20, 30, 40] (by decide)

theorem point_amount_of_nonneg (e u : ℚ) (he : 0 ≤ e) :
    ((point_amount e u).toNat : ℤ) = ⌊e⌋ + (if u < e - ⌊e⌋ then 1 else 0) := by
  unfold point_amount c_trunc fractf
  rw [if_pos he, rat_floor_eq]
  simp only [gt_iff_lt]
  have hfl : (0 : ℤ) ≤ ⌊e⌋ := Int.floor_nonneg.mpr he
  by_cases hc : u < e - ⌊e⌋
  · rw [if_pos hc, Int.toNat_of_nonneg (by omega)]
  · rw [if_neg hc, add_zero, Int.toNat_of_nonneg hfl]

/-- C3: the scatter is deterministic and factors through its per-triangle RNG
streams.  First conjunct: the uniform scatter is exactly the concatenation of
a fixed per-triangle function whose only inputs are that triangle's vertex
data, the density, the global seed and the triangle's own index (the stream
being seeded with `BLI_hash_int(looptri_index + seed)` inside
`uniform_tri_points`).  Second and third conjuncts: two meshes that agree on
every triangle's resolved data produce identical candidate sets in either
mode, independent of any other per-mesh data — so each triangle's candidates
are independent of the order and contents of other triangles, and re-running
on the same input is trivially bit-identical because the whole computation is
a pure function. -/
theorem C3_determinism_per_triangle_streams :
    (∀ (lib : ExternalLib) (m : Mesh) (density : ℚ) (seed : ℤ),
      initial_uniform_distribution lib m density seed =
        (List.range m.looptris.length).flatMap
          (fun t => uniform_tri_points lib (looptri_verts m t) density seed t)) ∧
    (∀ (lib : ExternalLib) (m1 m2 : Mesh) (density : ℚ) (seed : ℤ),
      m1.looptris.length = m2.looptris.length →
      (∀ t, looptri_verts m1 t = looptri_verts m2 t) →
      initial_uniform_distribution lib m1 density seed =
        initial_uniform_distribution lib m2 density seed) ∧
    (∀ (lib : ExternalLib) (m1 m2 : Mesh) (df1 df2 : ℕ → ℚ) (density : ℚ) (seed : ℤ),
      m1.looptris.length = m2.looptris.length →
      (∀ t, looptri_verts m1 t = looptri_verts m2 t) →
      (∀ t, looptri_vert_factors m1 df1 t = looptri_vert_factors m2 df2 t) →
      random_scatter_points_from_mesh lib m1 density df1 seed =
        random_scatter_points_from_mesh lib m2 density df2 seed) := by
  refine ⟨fun lib m density seed => rfl, ?_, ?_⟩
  · intro lib m1 m2 density seed hlen hverts
    unfold initial_uniform_distribution
    rw [hlen]
    congr 1
    funext t
    rw [hverts t]
  · intro lib m1 m2 df1 df2 density seed hlen hverts hfac
    unfold random_scatter_points_from_mesh
    rw [hlen]
    congr 1
    funext t
    rw [hverts t, hfac t]

/-- A one-triangle mesh. -/
def mA : Mesh := ⟨[0, 1, 2], [⟨0, 0, 0⟩, ⟨1, 0, 0⟩, ⟨0, 1, 0⟩], [⟨0, 1, 2⟩]⟩

/-- `mB` differs from `mA` only in an extra vertex no loop references. -/
def mB : Mesh := ⟨[0, 1, 2], [⟨0, 0, 0⟩, ⟨1, 0, 0⟩, ⟨0, 1, 0⟩, ⟨7, 7, 7⟩], [⟨0, 1, 2⟩]⟩

theorem C3_determinism_witness :
    initial_uniform_distribution demoLib mA 1 0 =
      initial_uniform_distribution demoLib mB 1 0 :=
  C3_determinism_per_triangle_streams.2.1 demoLib mA mB 1 0 rfl
    (fun t => by cases t with | zero => rfl | succ n => rfl)

/-- C4: per triangle, with expected count `points_amount_fl` and its integer
and fractional parts `n = ⌊e⌋` and `f = e - ⌊e⌋`, the scatter emits exactly
`n + 1` points when the first uniform draw `u` of the triangle's stream
satisfies `u < f`, and exactly `n` points otherwise — in the uniform mode
(expected count `area * density`) and in the random mode (expected count
`area * density * looptri_density_factor`).  The non-negativity hypothesis
reflects that both callers only reach this code with a non-negative expected
count (area and clamped factors are non-negative and the density was checked
positive). -/
theorem C4_stochastic_rounding :
    (∀ (lib : ExternalLib) (v0 v1 v2 : V3) (density : ℚ) (seed : ℤ) (t : ℕ),
      0 ≤ lib.area_tri_v3 v0 v1 v2 * density →
      ((uniform_tri_points lib (v0, v1, v2) density seed t).length : ℤ) =
        ⌊lib.area_tri_v3 v0 v1 v2 * density⌋ +
          (if triStream t seed 0 <
              lib.area_tri_v3 v0 v1 v2 * density - ⌊lib.area_tri_v3 v0 v1 v2 * density⌋
           then 1 else 0)) ∧
    (∀ (lib : ExternalLib) (v0 v1 v2 : V3) (f0 f1 f2 density : ℚ) (seed : ℤ) (t : ℕ),
      0 ≤ random_points_amount_fl (lib.area_tri_v3 v0 v1 v2) density f0 f1 f2 →
      ((random_tri_points lib (v0, v1, v2) (f0, f1, f2) density seed t).length : ℤ) =
        ⌊random_points_amount_fl (lib.area_tri_v3 v0 v1 v2) density f0 f1 f2⌋ +
          (if triStream t seed 0 <
              random_points_amount_fl (lib.area_tri_v3 v0 v1 v2) density f0 f1 f2 -
                ⌊random_points_amount_fl (lib.area_tri_v3 v0 v1 v2) density f0 f1 f2⌋
           then 1 else 0)) := by
  constructor
  · intro lib v0 v1 v2 density seed t he
    unfold uniform_tri_points
    dsimp only
    rw [List.length_map, List.length_range]
    exact point_amount_of_nonneg _ _ he
  · intro lib v0 v1 v2 f0 f1 f2 density seed t he
    unfold random_tri_points
    dsimp only
    rw [List.length_map, List.length_range]
    exact point_amount_of_nonneg _ _ he

theorem C4_stochastic_rounding_witness :
    ((uniform_tri_points demoLib (⟨0, 0, 0⟩, ⟨1, 0, 0⟩, ⟨0, 1, 0⟩) 2 0 0).length : ℤ) =
      ⌊demoLib.area_tri_v3 ⟨0, 0, 0⟩ ⟨1, 0, 0⟩ ⟨0, 1, 0⟩ * 2⌋ +
        (if triStream 0 0 0 <
            demoLib.area_tri_v3 ⟨0, 0, 0⟩ ⟨1, 0, 0⟩ ⟨0, 1, 0⟩ * 2 -
              ⌊demoLib.area_tri_v3 ⟨0, 0, 0⟩ ⟨1, 0, 0⟩ ⟨0, 1, 0⟩ * 2⌋
         then 1 else 0) :=
  C4_stochastic_rounding.1 demoLib ⟨0, 0, 0⟩ ⟨1, 0, 0⟩ ⟨0, 1, 0⟩ 2 0 0
    (by norm_num [demoLib, tri_cross])

/-- C6: every degenerate input — no mesh in the geometry, a mesh with zero
triangles, or a non-positive max density — yields the empty output point set
(all five attribute arrays empty), in both modes; the embedding is total, so
no error is raised. -/
theorem C6_degenerate_inputs_empty (lib : ExternalLib) (method : DistributeMethod)
    (p : GeoNodeParams)
    (h : p.geometry = none ∨ (∃ m, p.geometry = some m ∧ m.looptris = []) ∨
      p.density_max ≤ 0) :
    geo_node_point_distribute_exec lib method p = emptyPointCloudOut := by
  obtain ⟨geom, dmin, dmax, df, seed⟩ := p
  rcases h with h | ⟨m, hm, hm0⟩ | h
  · simp only at h
    subst h
    rfl
  · simp only at hm
    subst hm
    by_cases hd : dmax ≤ 0
    · simp [geo_node_point_distribute_exec, hd]
    · cases method
      · simp [geo_node_point_distribute_exec, hd, random_scatter_points_from_mesh,
          hm0, emptyPointCloudOut]
      · simp [geo_node_point_distribute_exec, hd,
          stable_random_scatter_with_minimum_distance, initial_uniform_distribution,
          hm0, eliminate_points_based_on_mask, eliminate_loop,
          compute_remaining_point_data, emptyPointCloudOut]
  · simp only at h
    cases geom with
    | none => rfl
    | some m => simp [geo_node_point_distribute_exec, h]

theorem C6_degenerate_inputs_empty_witness :
    geo_node_point_distribute_exec demoLib DistributeMethod.poisson
      ⟨none, 1, 1, fun _ => 1, 0⟩ = emptyPointCloudOut :=
  C6_degenerate_inputs_empty demoLib DistributeMethod.poisson
    ⟨none, 1, 1, fun _ => 1, 0⟩ (Or.inl rfl)

/-- The density factor exactly as the spec words it: the arithmetic mean of
the three per-vertex density factors, each clamped to `0` from below before
the mean is taken, multiplied by the max density. -/
def spec_mean_density_factor (density f0 f1 f2 : ℚ) : ℚ :=
  (max 0 f0 + max 0 f1 + max 0 f2) / 3 * density

/-- C7: in Random mode the density factor feeding the expected count is the
arithmetic mean of the three clamped per-vertex factors multiplied by the max
density.  First conjunct: the source's expected count
`area * density * looptri_density_factor` equals `area` times the spec's
formula (clamping applied before the mean).  Second conjunct: the random-mode
scatter really emits according to that expected count. -/
theorem C7_random_mode_density_factor :
    (∀ area density f0 f1 f2 : ℚ,
      random_points_amount_fl area density f0 f1 f2 =
        area * spec_mean_density_factor density f0 f1 f2) ∧
    (∀ (lib : ExternalLib) (verts : V3 × V3 × V3) (factors : ℚ × ℚ × ℚ)
        (density : ℚ) (seed : ℤ) (t : ℕ),
      (random_tri_points lib verts factors density seed t).length =
        (point_amount
          (random_points_amount_fl (lib.area_tri_v3 verts.1 verts.2.1 verts.2.2)
            density factors.1 factors.2.1 factors.2.2)
          (triStream t seed 0)).toNat) := by
  constructor
  · intro area density f0 f1 f2
    unfold random_points_amount_fl looptri_density_factor spec_mean_density_factor
    ring
  · intro lib verts factors density seed t
    unfold random_tri_points
    dsimp only
    rw [List.length_map, List.length_range]

/-- C8: in both modes the stable id of an output point is the 32-bit integer
hash of its barycentric coordinate, cast to `int`, plus its source triangle
index.  First conjunct: the deferred recomputation in the minimum-distance
mode's `compute_remaining_point_data`.  Second conjunct: the inline
computation in Random mode, where the id of the `k`-th emitted point of a
triangle uses exactly the barycentric coordinate drawn for that point — the
same formula, so a candidate gets the same id through either path. -/
theorem C8_stable_id_same_formula :
    (∀ (lib : ExternalLib) (m : Mesh) (bary_coords : List V3)
        (looptri_indices : List ℕ) (i : ℕ), i < bary_coords.length →
      ((compute_remaining_point_data lib m bary_coords looptri_indices).2).getD i 0 =
        toInt32 (float3_hash (bary_coords.getD i v3zero)) +
          (looptri_indices.getD i 0 : ℤ)) ∧
    (∀ (lib : ExternalLib) (verts : V3 × V3 × V3) (factors : ℚ × ℚ × ℚ)
        (density : ℚ) (seed : ℤ) (t k : ℕ),
      k < (random_tri_points lib verts factors density seed t).length →
      ((random_tri_points lib verts factors density seed t).getD k default).2.1 =
        toInt32 (float3_hash (get_barycentric (triStream t seed (1 + 2 * k))
          (triStream t seed (2 + 2 * k)))) + (t : ℤ)) := by
  constructor
  · intro lib m bary_coords looptri_indices i hi
    unfold compute_remaining_point_data
    dsimp only
    rw [getD_map_range _ hi]
  · intro lib verts factors density seed t k hk
    unfold random_tri_points at hk ⊢
    dsimp only at hk ⊢
    rw [List.length_map, List.length_range] at hk
    rw [getD_map_range _ hk]

theorem C8_stable_id_witness :
    ((compute_remaining_point_data demoLib mA [⟨1 / 2, 1 / 4, 1 / 4⟩] [5]).2).getD 0 0 =
      toInt32 (float3_hash (([⟨1 / 2, 1 / 4, 1 / 4⟩] : List V3).getD 0 v3zero)) +
        ((([5] : List ℕ).getD 0 0 : ℕ) : ℤ) :=
  C8_stable_id_same_formula.1 demoLib mA [⟨1 / 2, 1 / 4, 1 / 4⟩] [5] 0 (by norm_num)

/-- C9: the minimum-distance mode never reads the per-vertex density-factor
attribute — two runs that differ only in the density-factor field produce
identical outputs, both at the level of
`stable_random_scatter_with_minimum_distance` (which receives the attribute
but ignores it) and at the level of the whole node execution in Poisson
mode. -/
theorem C9_poisson_ignores_density_attribute :
    (∀ (lib : ExternalLib) (m : Mesh) (max_density minimum_distance : ℚ)
        (df1 df2 : ℕ → ℚ) (seed : ℤ),
      stable_random_scatter_with_minimum_distance lib m max_density
          minimum_distance df1 seed =
        stable_random_scatter_with_minimum_distance lib m max_density
          minimum_distance df2 seed) ∧
    (∀ (lib : ExternalLib) (geom : Option Mesh) (dmin dmax : ℚ)
        (df1 df2 : ℕ → ℚ) (seed : ℤ),
      geo_node_point_distribute_exec lib DistributeMethod.poisson
          ⟨geom, dmin, dmax, df1, seed⟩ =
        geo_node_point_distribute_exec lib DistributeMethod.poisson
          ⟨geom, dmin, dmax, df2, seed⟩) := by
  constructor
  · intro lib m a b df1 df2 seed
    rfl
  · intro lib geom dmin dmax df1 df2 seed
    cases geom with
    | none => rfl
    | some m => rfl

theorem point_amount_zero (u : ℚ) (hu : 0 ≤ u) : point_amount 0 u = 0 := by
  unfold point_amount c_trunc fractf
  rw [if_pos (le_refl (0 : ℚ))]
  have h0 : (0 : ℚ).floor = 0 := (rat_floor_eq 0).trans Int.floor_zero
  rw [h0]
  have hneg : ¬((0 : ℚ) - ((0 : ℤ) : ℚ) > u) := by
    push_neg
    simpa using hu
  rw [if_neg hneg]
  norm_num

/-- C10: a triangle whose computed area is exactly zero emits no points in
either scatter mode, for any seed: its expected count is `0`, whose integer
and fractional parts are both `0`, and the extra-point test
`fract > u` never holds against a uniform draw `u ≥ 0` — so degenerate
triangles contribute no positions, no ids and no normals (and hence never
feed a normal into rotation extraction). -/
theorem C10_zero_area_triangle_emits_nothing :
    ∀ (lib : ExternalLib) (v0 v1 v2 : V3) (factors : ℚ × ℚ × ℚ) (density : ℚ)
      (seed : ℤ) (t : ℕ),
      lib.area_tri_v3 v0 v1 v2 = 0 →
      uniform_tri_points lib (v0, v1, v2) density seed t = [] ∧
      random_tri_points lib (v0, v1, v2) factors density seed t = [] := by
  intro lib v0 v1 v2 factors density seed t harea
  have hu : 0 ≤ triStream t seed 0 := rng_float_nonneg _ _
  constructor
  · unfold uniform_tri_points
    dsimp only
    rw [harea, zero_mul, point_amount_zero _ hu, Int.toNat_zero,
      List.range_zero, List.map_nil]
  · unfold random_tri_points
    dsimp only
    rw [harea]
    have hz : random_points_amount_fl 0 density factors.1 factors.2.1 factors.2.2 = 0 := by
      unfold random_points_amount_fl
      ring
    rw [hz, point_amount_zero _ hu, Int.toNat_zero,
      List.range_zero, List.map_nil]

theorem C10_zero_area_witness :
    uniform_tri_points demoLib (⟨0, 0, 0⟩, ⟨1, 0, 0⟩, ⟨2, 0, 0⟩) 5 3 2 = [] ∧
    random_tri_points demoLib (⟨0, 0, 0⟩, ⟨1, 0, 0⟩, ⟨2, 0, 0⟩) (1, 1, 1) 5 3 2 = [] :=
  C10_zero_area_triangle_emits_nothing demoLib ⟨0, 0, 0⟩ ⟨1, 0, 0⟩ ⟨2, 0, 0⟩ (1, 1, 1) 5 3 2
    (by norm_num [demoLib, tri_cross])

end PointDistribute
